import Mathlib

/-
Verification development for the qrack stabilizer/circuit core.

Sources embedded here:
  * src/src/qcircuit.cpp          (QCircuit::AppendGate, QCircuit::Run, stream operators)
  * src/include/qstabilizer.hpp   (QStabilizer::ParFor, Dispatch, MCMtrx/MACMtrx,
                                   NormalizeState, TrySeparate)
  * src/include/common/dispatchqueue.hpp (declarations only)

The numeric scalars of the C++ code (fixed-precision complex floats) are
modelled by exact arithmetic over the field Q(sqrt 2), with complex numbers as
pairs.  Negligibility tests (IS_NORM_0, FP_NORM_EPSILON) are modelled as exact
comparison with zero, the standard exact-arithmetic idealization of the
floating-point epsilon tests.
-/

namespace QrackSpec

/-- Normalized dyadic rational num / 2^exp.  The scalar coefficients appearing
in this development (Clifford matrix entries and their products) are all
dyadic, and this representation is canonical (num odd unless exp = 0), so the
derived structural equality is true value equality.  It is chosen over
Mathlib's ℚ because its arithmetic reduces inside the kernel, which the
concrete `decide` evaluations below require. -/
structure Dy where
  num : ℤ
  exp : ℕ
  reduced : exp = 0 ∨ num % 2 ≠ 0
deriving DecidableEq

namespace Dy

/-- Cancel common factors of two between numerator and the 2-power exponent. -/
def normPair : ℤ → ℕ → ℤ × ℕ
  | m, 0 => (m, 0)
  | m, k + 1 => if m % 2 = 0 then normPair (m / 2) k else (m, k + 1)

theorem normPair_reduced : ∀ (m : ℤ) (k : ℕ),
    (normPair m k).2 = 0 ∨ (normPair m k).1 % 2 ≠ 0 := by
  intro m k
  induction k generalizing m with
  | zero => exact Or.inl rfl
  | succ n ih =>
    unfold normPair
    by_cases h : m % 2 = 0
    · simpa [h] using ih (m / 2)
    · simp only [if_neg h]
      exact Or.inr h

/-- Normalizing constructor. -/
def mk' (m : ℤ) (k : ℕ) : Dy :=
  ⟨(normPair m k).1, (normPair m k).2, normPair_reduced m k⟩

def add (x y : Dy) : Dy := mk' (x.num * 2 ^ y.exp + y.num * 2 ^ x.exp) (x.exp + y.exp)

def mul (x y : Dy) : Dy := mk' (x.num * y.num) (x.exp + y.exp)

theorem neg_reduced (x : Dy) : x.exp = 0 ∨ -x.num % 2 ≠ 0 := by
  rcases x.reduced with h | h
  · exact Or.inl h
  · exact Or.inr (by rwa [Int.neg_emod_two])

def neg (x : Dy) : Dy := ⟨-x.num, x.exp, neg_reduced x⟩

def zero : Dy := ⟨0, 0, Or.inl rfl⟩

def one : Dy := ⟨1, 0, Or.inl rfl⟩

def two : Dy := ⟨2, 0, Or.inl rfl⟩

/-- Dyadic one half, the coefficient of sqrt 2 in the Hadamard entries. -/
def half : Dy := ⟨1, 1, Or.inr (by decide)⟩

/-- Fueled test whether n is a power of two, returning the logarithm. -/
def pow2Log : ℕ → ℕ → Option ℕ
  | 0, _ => none
  | fuel + 1, n =>
    if n = 1 then some 0
    else if n % 2 = 0 && n != 0 then (pow2Log fuel (n / 2)).map (· + 1)
    else none

/-- Multiplicative inverse, exact on the dyadic-invertible elements (numerator
a signed power of two) and 0 elsewhere; every inverse taken by the concrete
computations of this development is exact. -/
def inv (x : Dy) : Dy :=
  match pow2Log (x.num.natAbs + 1) x.num.natAbs with
  | some j =>
    let s : ℤ := if x.num < 0 then -1 else 1
    if j ≤ x.exp then mk' (s * 2 ^ (x.exp - j)) 0 else mk' s (j - x.exp)
  | none => zero

instance : Add Dy := ⟨add⟩
instance : Mul Dy := ⟨mul⟩
instance : Neg Dy := ⟨neg⟩
instance : Zero Dy := ⟨zero⟩
instance : One Dy := ⟨one⟩

theorem ext_val : ∀ {x y : Dy}, x.num = y.num → x.exp = y.exp → x = y := by
  intro x y h1 h2
  cases x
  cases y
  cases h1
  cases h2
  rfl

theorem normPair_of_reduced : ∀ (m : ℤ) (k : ℕ), (k = 0 ∨ m % 2 ≠ 0) → normPair m k = (m, k) := by
  intro m k h
  cases k with
  | zero => rfl
  | succ n =>
    rcases h with h | h
    · cases h
    · unfold normPair
      simp [h]

theorem mk_self (x : Dy) : mk' x.num x.exp = x := by
  have h := normPair_of_reduced x.num x.exp x.reduced
  apply ext_val
  · show (normPair x.num x.exp).1 = x.num
    rw [h]
  · show (normPair x.num x.exp).2 = x.exp
    rw [h]

theorem normPair_zero : ∀ k : ℕ, normPair 0 k = (0, 0) := by
  intro k
  induction k with
  | zero => rfl
  | succ n ih =>
    unfold normPair
    norm_num
    exact ih

theorem dy_one_mul (x : Dy) : (1 : Dy) * x = x := by
  show one.mul x = x
  unfold mul
  simpa [one] using mk_self x

theorem dy_mul_one (x : Dy) : x * (1 : Dy) = x := by
  show x.mul one = x
  unfold mul
  simpa [one] using mk_self x

theorem dy_zero_mul (x : Dy) : (0 : Dy) * x = 0 := by
  show zero.mul x = zero
  unfold mul
  apply ext_val <;> simp [zero, mk', normPair_zero]

theorem dy_mul_zero (x : Dy) : x * (0 : Dy) = 0 := by
  show x.mul zero = zero
  unfold mul
  apply ext_val <;> simp [zero, mk', normPair_zero]

theorem dy_add_zero (x : Dy) : x + (0 : Dy) = x := by
  show x.add zero = x
  unfold add
  simpa [zero] using mk_self x

theorem dy_zero_add (x : Dy) : (0 : Dy) + x = x := by
  show zero.add x = x
  unfold add
  simpa [zero] using mk_self x

theorem dy_neg_zero : -(0 : Dy) = 0 := by
  show zero.neg = zero
  apply ext_val <;> simp [zero, neg]

end Dy

/-- Element a + b * sqrt 2 of the ring of dyadic elements of Q(sqrt 2), in
which the Hadamard matrix entries and all their Clifford products are exactly
representable. -/
structure K2 where
  a : Dy
  b : Dy
deriving DecidableEq

namespace K2

def add (x y : K2) : K2 := ⟨x.a + y.a, x.b + y.b⟩

def mul (x y : K2) : K2 :=
  ⟨x.a * y.a + Dy.two * x.b * y.b, x.a * y.b + x.b * y.a⟩

def neg (x : K2) : K2 := ⟨-x.a, -x.b⟩

/-- Multiplicative inverse in Q(sqrt 2): (a + b sqrt 2)⁻¹ = (a - b sqrt 2)/(a² - 2 b²),
via the dyadic inverse (exact whenever the result is dyadic, 0 otherwise). -/
def inv (x : K2) : K2 :=
  let d : Dy := (x.a * x.a + (Dy.two * x.b * x.b).neg).inv
  ⟨x.a * d, (-x.b) * d⟩

instance : Add K2 := ⟨add⟩
instance : Mul K2 := ⟨mul⟩
instance : Neg K2 := ⟨neg⟩
instance : Zero K2 := ⟨⟨Dy.zero, Dy.zero⟩⟩
instance : One K2 := ⟨⟨Dy.one, Dy.zero⟩⟩

theorem addK2_def (x y : K2) : x + y = ⟨x.a + y.a, x.b + y.b⟩ := rfl

theorem mulK2_def (x y : K2) :
    x * y = ⟨x.a * y.a + Dy.two * x.b * y.b, x.a * y.b + x.b * y.a⟩ := rfl

theorem ext_ab : ∀ {x y : K2}, x.a = y.a → x.b = y.b → x = y
  | ⟨_, _⟩, ⟨_, _⟩, rfl, rfl => rfl

end K2

/-- Complex number over Q(sqrt 2); models the `complex` scalar of the C++ code. -/
structure CQ where
  re : K2
  im : K2
deriving DecidableEq

namespace CQ

def add (x y : CQ) : CQ := ⟨x.re + y.re, x.im + y.im⟩

def mul (x y : CQ) : CQ :=
  ⟨x.re * y.re + (K2.neg (x.im * y.im)), x.re * y.im + x.im * y.re⟩

def neg (x : CQ) : CQ := ⟨K2.neg x.re, K2.neg x.im⟩

/-- Squared modulus, an element of Q(sqrt 2); exactly computable (no square root
is needed, unlike the modulus itself). -/
def normSq (x : CQ) : K2 := x.re * x.re + x.im * x.im

/-- Multiplicative inverse: conj(z) / |z|².  Total; inverse of 0 is 0. -/
def inv (x : CQ) : CQ :=
  let d : K2 := (normSq x).inv
  ⟨x.re * d, (K2.neg x.im) * d⟩

instance : Add CQ := ⟨add⟩
instance : Mul CQ := ⟨mul⟩
instance : Neg CQ := ⟨neg⟩
instance : Zero CQ := ⟨⟨0, 0⟩⟩
instance : One CQ := ⟨⟨1, 0⟩⟩
instance : Inv CQ := ⟨inv⟩
instance : Div CQ := ⟨fun x y => x * y.inv⟩

/-- Imaginary unit. -/
def iu : CQ := ⟨0, 1⟩

theorem addCQ_def (x y : CQ) : x + y = ⟨x.re + y.re, x.im + y.im⟩ := rfl

theorem mulCQ_def (x y : CQ) :
    x * y = ⟨x.re * y.re + (K2.neg (x.im * y.im)), x.re * y.im + x.im * y.re⟩ := rfl

theorem ext_parts : ∀ {x y : CQ}, x.re = y.re → x.im = y.im → x = y
  | ⟨_, _⟩, ⟨_, _⟩, rfl, rfl => rfl

theorem mul_re (x y : CQ) : (x * y).re = x.re * y.re + (K2.neg (x.im * y.im)) := rfl

theorem mul_im (x y : CQ) : (x * y).im = x.re * y.im + x.im * y.re := rfl

theorem add_re (x y : CQ) : (x + y).re = x.re + y.re := rfl

theorem add_im (x y : CQ) : (x + y).im = x.im + y.im := rfl

theorem one_re : (1 : CQ).re = (1 : K2) := rfl

theorem one_im : (1 : CQ).im = (0 : K2) := rfl

theorem zero_re : (0 : CQ).re = (0 : K2) := rfl

theorem zero_im : (0 : CQ).im = (0 : K2) := rfl

theorem k2_one_a : (1 : K2).a = (1 : Dy) := rfl

theorem k2_one_b : (1 : K2).b = (0 : Dy) := rfl

theorem k2_zero_a : (0 : K2).a = (0 : Dy) := rfl

theorem k2_zero_b : (0 : K2).b = (0 : Dy) := rfl

theorem k2_one_mul (z : K2) : (1 : K2) * z = z := by
  apply K2.ext_ab <;>
    simp [K2.mulK2_def, k2_one_a, k2_one_b, Dy.dy_one_mul, Dy.dy_mul_zero,
      Dy.dy_zero_mul, Dy.dy_add_zero, Dy.dy_zero_add]

theorem k2_zero_mul (z : K2) : (0 : K2) * z = 0 := by
  apply K2.ext_ab <;>
    simp [K2.mulK2_def, k2_zero_a, k2_zero_b, Dy.dy_mul_zero, Dy.dy_zero_mul,
      Dy.dy_add_zero, Dy.dy_zero_add]

theorem k2_add_zero (z : K2) : z + (0 : K2) = z := by
  apply K2.ext_ab <;> simp [K2.addK2_def, k2_zero_a, k2_zero_b, Dy.dy_add_zero]

theorem k2_zero_add (z : K2) : (0 : K2) + z = z := by
  apply K2.ext_ab <;> simp [K2.addK2_def, k2_zero_a, k2_zero_b, Dy.dy_zero_add]

theorem k2_neg_zero : K2.neg (0 : K2) = 0 := by
  apply K2.ext_ab <;> simp [K2.neg, k2_zero_a, k2_zero_b, Dy.dy_neg_zero]

/-- Helper algebraic fact used by the gate-semantics proofs: 1 * x + 0 * y = x. -/
theorem one_mul_add_zero_mul (x y : CQ) : (1 : CQ) * x + (0 : CQ) * y = x := by
  apply ext_parts <;>
    simp [mul_re, mul_im, add_re, add_im, one_re, one_im, zero_re, zero_im,
      k2_one_mul, k2_zero_mul, k2_neg_zero, k2_add_zero, k2_zero_add]

/-- Helper algebraic fact used by the gate-semantics proofs: 0 * x + 1 * y = y. -/
theorem zero_mul_add_one_mul (x y : CQ) : (0 : CQ) * x + (1 : CQ) * y = y := by
  apply ext_parts <;>
    simp [mul_re, mul_im, add_re, add_im, one_re, one_im, zero_re, zero_im,
      k2_one_mul, k2_zero_mul, k2_neg_zero, k2_add_zero, k2_zero_add]

end CQ

/-- A 2x2 complex matrix; models the 4-entry `complex*` payload arrays of
QCircuitGate (entry order m00 m01 m10 m11, as in the C++ code). -/
structure Mat2 where
  e00 : CQ
  e01 : CQ
  e10 : CQ
  e11 : CQ
deriving DecidableEq

namespace Mat2

/-- The 2x2 identity matrix. -/
def idm : Mat2 := ⟨1, 0, 0, 1⟩

/-- Matrix product. -/
def mul (x y : Mat2) : Mat2 :=
  ⟨x.e00 * y.e00 + x.e01 * y.e10, x.e00 * y.e01 + x.e01 * y.e11,
   x.e10 * y.e00 + x.e11 * y.e10, x.e10 * y.e01 + x.e11 * y.e11⟩

/-- The matrix is diagonal (both off-diagonal entries are exactly zero; models
the IS_NORM_0 epsilon test on m01 and m10). -/
def isDiagonal (m : Mat2) : Bool := m.e01 = 0 && m.e10 = 0

/-- Pauli X matrix. -/
def pauliX : Mat2 := ⟨0, 1, 1, 0⟩

/-- Hadamard matrix: (1/sqrt 2) * [[1,1],[1,-1]]; 1/sqrt 2 = (1/2) sqrt 2. -/
def hadamard : Mat2 :=
  let h : CQ := ⟨⟨Dy.zero, Dy.half⟩, 0⟩
  ⟨h, h, h, CQ.neg h⟩

end Mat2

/-- Circuit gate (component C5 of the spec).  Fields mirror QCircuitGate of the
source: `target`, `controls` (a std::set of qubit indices, modelled as a
strictly-sorted list), `payloads` (a std::map from control permutation to a 2x2
matrix, modelled as a key-sorted association list).  The class itself lives in
qcircuit.hpp, which is not among the given source files; field layout follows
the spec's data model. -/
structure QCircuitGate where
  target : ℕ
  controls : List ℕ
  payloads : List (ℕ × Mat2)
deriving DecidableEq

namespace QCircuitGate

/-- Every qubit the gate touches: its target together with its controls. -/
def qubits (g : QCircuitGate) : List ℕ := g.target :: g.controls

/-- Modelled from the spec: QCircuitGate::IsIdentity (implementation missing
from the given sources).  A gate is identity when its controls are empty and
payload 0 is the 2x2 identity, or when every payload entry is identity. -/
def IsIdentity (g : QCircuitGate) : Bool :=
  (g.controls = [] && g.payloads.lookup 0 = some Mat2.idm) ||
    g.payloads.all (fun p => p.2 = Mat2.idm)

/-- Modelled from the spec: QCircuitGate::CanCombine (implementation missing
from the given sources).  True iff the targets are equal, or the targets
differ while the control sets match exactly and the payload key sets match
exactly. -/
def CanCombine (g o : QCircuitGate) : Bool :=
  g.target = o.target ||
    (g.controls = o.controls && g.payloads.map Prod.fst = o.payloads.map Prod.fst)

/-- Every payload matrix of the gate is diagonal (phase-only). -/
def allDiagonal (g : QCircuitGate) : Bool :=
  g.payloads.all (fun p => p.2.isDiagonal)

/-- One direction of the CanPass overlap test: if the target of `g` touches
`o` at all, it must appear in `o` only as a control, and then all payloads of
`g` must be diagonal so that the control value is preserved. -/
def passHalf (g o : QCircuitGate) : Bool :=
  !(o.qubits.contains g.target) || (o.controls.contains g.target && allDiagonal g)

/-- Modelled from the spec: QCircuitGate::CanPass (implementation missing from
the given sources).  The gates commute syntactically when their qubit sets are
disjoint, or when each target that overlaps the other gate appears there only
as a control with all relevant payloads diagonal (shared controls commute
freely).  The definition is symmetric by construction. -/
def CanPass (g o : QCircuitGate) : Bool :=
  g.qubits.all (fun q => !(o.qubits.contains q)) || (passHalf g o && passHalf o g)

/-- Ordered-set insertion, as std::set / std::map insertion: keeps the list
strictly sorted, ignoring an already-present key. -/
def setInsert : List ℕ → ℕ → List ℕ
  | [], v => [v]
  | h :: t, v => if v < h then v :: h :: t else if v = h then h :: t else h :: setInsert t v

/-- Union of two sorted key lists (the key set of the combined payload map),
used by TryCombine. -/
def mergeKeys (l1 l2 : List ℕ) : List ℕ := l2.foldl setInsert l1

/-- Modelled from the spec: the payload combination step of
QCircuitGate::TryCombine.  Over the union of payload keys, matching payloads
are multiplied (the later gate's matrix on the left; a missing payload acts as
identity), and resulting entries equal to the identity are removed. -/
def combinePayloads (older newer : List (ℕ × Mat2)) : List (ℕ × Mat2) :=
  (mergeKeys (older.map Prod.fst) (newer.map Prod.fst)).filterMap fun k =>
    let m := Mat2.mul ((newer.lookup k).getD Mat2.idm) ((older.lookup k).getD Mat2.idm)
    if m = Mat2.idm then none else some (k, m)

/-- Modelled from the spec: the successful branch of QCircuitGate::TryCombine,
mutating the receiver `g` by absorbing the newly appended gate `o`.  The
receiver keeps its target and controls. -/
def combine (g o : QCircuitGate) : QCircuitGate :=
  { g with payloads := combinePayloads g.payloads o.payloads }

/-- A CNOT gate with control c and target t (payload X for the asserted
pattern 1), as produced by the circuit front-end and recognized by
QCircuitGate::IsCnot. -/
def cnot (c t : ℕ) : QCircuitGate := ⟨t, [c], [(1, Mat2.pauliX)]⟩

/-- Modelled from the spec: QCircuitGate::IsCnot (implementation missing from
the given sources): exactly one control and the single payload X at the
asserted pattern. -/
def IsCnot (g : QCircuitGate) : Bool :=
  g.controls.length = 1 && g.payloads = [(1, Mat2.pauliX)]

/-- The swap-encoded gate QCircuitGate(target, control): empty payloads and a
single control, interpreted as SWAP(target, control). -/
def mkSwap (t c : ℕ) : QCircuitGate := ⟨t, [c], []⟩

/-- An uncontrolled Hadamard gate on qubit t. -/
def hGate (t : ℕ) : QCircuitGate := ⟨t, [], [(0, Mat2.hadamard)]⟩

end QCircuitGate

/-- Re-append loop of QCircuit::AppendGate (qcircuit.cpp lines 136-146),
parametrized by the recursive appender `app`: after the combined gate became
identity and was erased, every strictly-later gate is pushed back directly
when it can neither combine with nor pass the absorbed gate, and otherwise is
re-appended through AppendGate. -/
def reappendWith (app : List QCircuitGate → QCircuitGate → List QCircuitGate)
    (nGate : QCircuitGate) (acc : List QCircuitGate) (suffix : List QCircuitGate) :
    List QCircuitGate :=
  suffix.foldl
    (fun l g =>
      if !(nGate.CanCombine g) && !(nGate.CanPass g) then l ++ [g] else app l g)
    acc

/-- Backward scan of QCircuit::AppendGate (qcircuit.cpp lines 132-160).
`prefixRev` is the not-yet-visited part of the gate list in reverse order and
`suffix` the already-passed gates in original order, so the current list is
`prefixRev.reverse ++ suffix`.  At each step the last unvisited gate tries to
combine with the new gate; when the combination is identity the gates after
it are erased and re-appended — the erase range starts at gateIt.base(), the
position after the combined gate, so the (now identity) combined gate itself
stays in the list.  Otherwise the new gate is inserted right after the first
gate it cannot pass, or pushed to the front when it passes everything. -/
def scanWith (app : List QCircuitGate → QCircuitGate → List QCircuitGate)
    (nGate : QCircuitGate) :
    List QCircuitGate → List QCircuitGate → List QCircuitGate
  | [], suffix => nGate :: suffix
  | h :: restRev, suffix =>
    if h.CanCombine nGate then
      (let h' := h.combine nGate
       if h'.IsIdentity then reappendWith app nGate (restRev.reverse ++ [h']) suffix
       else restRev.reverse ++ h' :: suffix)
    else if !(h.CanPass nGate) then restRev.reverse ++ h :: nGate :: suffix
    else scanWith app nGate restRev (h :: suffix)

/-- QCircuit::AppendGate (qcircuit.cpp lines 107-161) on a collapsed circuit,
at the level of the gate list.  `fuel` bounds the recursion depth of the
cascading re-append (the C++ recursion terminates because the number of
non-identity gates decreases; with zero fuel the list is returned unchanged).
Identity gates are dropped; otherwise the list is scanned from the back. -/
def appendGate : ℕ → List QCircuitGate → QCircuitGate → List QCircuitGate
  | 0, gates, _ => gates
  | fuel + 1, gates, nGate =>
    if nGate.IsIdentity then gates
    else scanWith (appendGate fuel) nGate gates.reverse []

/-- Append a whole sequence of gates to an initially empty collapsed circuit. -/
def appendSeq (fuel : ℕ) (gs : List QCircuitGate) : List QCircuitGate :=
  gs.foldl (appendGate fuel) []

/-- Boolean check that every adjacent pair of the list satisfies p. -/
def adjPairsOK (p : QCircuitGate → QCircuitGate → Bool) : List QCircuitGate → Bool
  | a :: b :: t => p a b && adjPairsOK p (b :: t)
  | _ => true

/-- The invariant the spec claims for the gate list after any append: no
adjacent pair satisfies CanCombine, and no gate may be commuted earlier, i.e.
no gate can pass its immediate predecessor. -/
def LocallyCanonical (l : List QCircuitGate) : Prop :=
  adjPairsOK (fun a b => !(a.CanCombine b) && !(a.CanPass b)) l = true

instance (l : List QCircuitGate) : Decidable (LocallyCanonical l) :=
  inferInstanceAs (Decidable (_ = true))

/-- The adjacency invariant that does hold: adjacent gates never share a
target (so no adjacent pair can combine through the same-target rule). -/
def NoAdjSameTarget (l : List QCircuitGate) : Prop :=
  List.Chain' (fun a b => a.target ≠ b.target) l

namespace QCircuitGate

theorem canPass_symm (g o : QCircuitGate) : g.CanPass o = o.CanPass g := by
  unfold CanPass
  rw [Bool.and_comm]
  congr 1
  rw [Bool.eq_iff_iff]
  simp only [List.all_eq_true, Bool.not_eq_true', List.contains, List.elem_eq_mem,
    decide_eq_false_iff_not]
  exact ⟨fun h q hq hq2 => h q hq2 hq, fun h q hq hq2 => h q hq2 hq⟩

theorem target_ne_of_not_canCombine {g o : QCircuitGate}
    (h : g.CanCombine o = false) : g.target ≠ o.target := by
  unfold CanCombine at h
  rw [Bool.or_eq_false_iff] at h
  simpa using h.1

theorem combine_target (g o : QCircuitGate) : (g.combine o).target = g.target := rfl

end QCircuitGate

/-- The direct push-back branch of the re-append loop is dead when every gate
of the suffix can pass the absorbed gate (true of the gates the backward scan
walked over, since CanPass is symmetric), so the loop preserves the
no-adjacent-equal-targets invariant whenever the recursive appender does. -/
theorem reappend_inv
    (app : List QCircuitGate → QCircuitGate → List QCircuitGate)
    (happ : ∀ L g, NoAdjSameTarget L → NoAdjSameTarget (app L g))
    (nGate : QCircuitGate) :
    ∀ suffix acc, NoAdjSameTarget acc →
      (∀ x ∈ suffix, x.CanPass nGate = true) →
      NoAdjSameTarget (reappendWith app nGate acc suffix) := by
  intro suffix
  induction suffix with
  | nil => intro acc h _; exact h
  | cons x rest ih =>
    intro acc h hinv
    have hx : x.CanPass nGate = true := hinv x (by simp)
    have hx2 : nGate.CanPass x = true := by
      rw [QCircuitGate.canPass_symm]; exact hx
    unfold reappendWith
    simp only [List.foldl_cons, hx2, Bool.not_true, Bool.and_false]
    exact ih (app acc x) (happ acc x h) (fun y hy => hinv y (by simp [hy]))

theorem chain_ne_replace_mid {l1 l2 : List QCircuitGate} {h h' : QCircuitGate}
    (ht : h'.target = h.target)
    (hc : NoAdjSameTarget (l1 ++ h :: l2)) :
    NoAdjSameTarget (l1 ++ h' :: l2) := by
  unfold NoAdjSameTarget at hc ⊢
  rw [List.chain'_append] at hc ⊢
  obtain ⟨c1, c2, cb⟩ := hc
  rw [List.chain'_cons'] at c2
  refine ⟨c1, ?_, ?_⟩
  · rw [List.chain'_cons']
    exact ⟨fun y hy => ht ▸ c2.1 y hy, c2.2⟩
  · intro x hx y hy
    simp only [List.head?_cons, Option.mem_def, Option.some.injEq] at hy
    subst hy
    have := cb x hx h (by simp)
    rw [ht]
    exact this

theorem scan_inv
    (app : List QCircuitGate → QCircuitGate → List QCircuitGate)
    (happ : ∀ L g, NoAdjSameTarget L → NoAdjSameTarget (app L g))
    (nGate : QCircuitGate) :
    ∀ prefixRev suffix,
      NoAdjSameTarget (prefixRev.reverse ++ suffix) →
      (∀ x ∈ suffix, x.CanCombine nGate = false ∧ x.CanPass nGate = true) →
      NoAdjSameTarget (scanWith app nGate prefixRev suffix) := by
  intro prefixRev
  induction prefixRev with
  | nil =>
    intro suffix hchain hinv
    unfold scanWith
    unfold NoAdjSameTarget at hchain ⊢
    simp only [List.reverse_nil, List.nil_append] at hchain
    rw [List.chain'_cons']
    refine ⟨?_, hchain⟩
    intro y hy
    have hmem : y ∈ suffix := by
      cases suffix with
      | nil => cases hy
      | cons a t =>
        simp only [List.head?_cons, Option.mem_def, Option.some.injEq] at hy
        subst hy; simp
    exact (QCircuitGate.target_ne_of_not_canCombine (hinv y hmem).1).symm
  | cons h restRev ih =>
    intro suffix hchain hinv
    unfold scanWith
    have hsplit : (h :: restRev).reverse ++ suffix = restRev.reverse ++ h :: suffix := by
      rw [List.reverse_cons, List.append_assoc]
      rfl
    rw [hsplit] at hchain
    by_cases hc : h.CanCombine nGate = true
    · simp only [hc, if_true]
      by_cases hid : ((h.combine nGate).IsIdentity) = true
      · simp only [hid, if_true]
        refine reappend_inv app happ nGate suffix (restRev.reverse ++ [h.combine nGate])
          ?_ (fun x hx => (hinv x hx).2)
        unfold NoAdjSameTarget at hchain ⊢
        rw [List.chain'_append] at hchain ⊢
        obtain ⟨c1, c2, cb⟩ := hchain
        refine ⟨c1, by simp, ?_⟩
        intro x hx y hy
        simp only [List.head?_cons, Option.mem_def, Option.some.injEq] at hy
        subst hy
        have := cb x hx h (by simp)
        rw [QCircuitGate.combine_target]
        exact this
      · simp only [Bool.not_eq_true] at hid
        simp only [hid, Bool.false_eq_true, if_false]
        exact chain_ne_replace_mid (QCircuitGate.combine_target h nGate) hchain
    · simp only [Bool.not_eq_true] at hc
      simp only [hc, Bool.false_eq_true, if_false]
      by_cases hp : h.CanPass nGate = true
      · simp only [hp, Bool.not_true, Bool.false_eq_true, if_false]
        refine ih (h :: suffix) hchain ?_
        intro x hx
        rcases List.mem_cons.mp hx with rfl | hx
        · exact ⟨hc, hp⟩
        · exact hinv x hx
      · simp only [Bool.not_eq_true] at hp
        simp only [hp, Bool.not_false, if_true]
        unfold NoAdjSameTarget at hchain ⊢
        rw [List.chain'_append] at hchain ⊢
        obtain ⟨c1, c2, cb⟩ := hchain
        rw [List.chain'_cons'] at c2
        refine ⟨c1, ?_, ?_⟩
        · rw [List.chain'_cons']
          constructor
          · intro y hy
            simp only [List.head?_cons, Option.mem_def, Option.some.injEq] at hy
            subst hy
            exact QCircuitGate.target_ne_of_not_canCombine hc
          · rw [List.chain'_cons']
            refine ⟨?_, c2.2⟩
            intro y hy
            have hmem : y ∈ suffix := by
              cases suffix with
              | nil => cases hy
              | cons a t =>
                simp only [List.head?_cons, Option.mem_def, Option.some.injEq] at hy
                subst hy; simp
            exact (QCircuitGate.target_ne_of_not_canCombine (hinv y hmem).1).symm
        · intro x hx y hy
          simp only [List.head?_cons, Option.mem_def, Option.some.injEq] at hy
          subst hy
          exact cb x hx h (by simp)

/-- AppendGate preserves the no-adjacent-equal-targets invariant for every
amount of fuel. -/
theorem appendGate_inv :
    ∀ fuel L g, NoAdjSameTarget L → NoAdjSameTarget (appendGate fuel L g) := by
  intro fuel
  induction fuel with
  | zero => intro L g h; exact h
  | succ n ih =>
    intro L g h
    unfold appendGate
    by_cases hid : g.IsIdentity = true
    · simpa [hid]
    · simp only [Bool.not_eq_true] at hid
      simp only [hid, Bool.false_eq_true, if_false]
      refine scan_inv (appendGate n) ih g L.reverse [] ?_ ?_
      · simpa [NoAdjSameTarget] using h
      · intro x hx; cases hx

/-- C1: refuted by the source.  The claim says that when a combination makes
the absorbed-into gate identity, that gate is removed from the list and the
later gates are re-appended, so that appending H(0), H(0), CNOT(0,1) to an
empty collapsed circuit leaves exactly [CNOT(0,1)].  But the erase in
qcircuit.cpp line 137, `gates.erase(gateIt.base(), gates.end())`, starts at
gateIt.base(), which is the position AFTER the gate the reverse iterator
points to, so the combined identity gate itself stays in the list: the three
appends end in [CNOT(0,1), G] where G = ⟨target 0, no controls, no payloads⟩
is the stale identity residue of the two combined Hadamards (the re-appended
CNOT passes it and is pushed to the front), not [CNOT(0,1)]. -/
theorem C1_code_behavior :
    appendSeq 10 [QCircuitGate.hGate 0, QCircuitGate.hGate 0, QCircuitGate.cnot 0 1] =
      [QCircuitGate.cnot 0 1, ⟨0, [], []⟩] := by
  decide

/-- C2 counterexample: appending H(0) and then CNOT(1,2) to an empty collapsed
circuit produces the list [CNOT(1,2), H(0)], in which H(0) can pass its
predecessor CNOT(1,2) (they act on disjoint qubits), so the claimed invariant
that no gate may be commuted earlier without hitting a non-passing neighbor is
false. -/
theorem C2_counterexample :
    ¬ LocallyCanonical (appendSeq 5 [QCircuitGate.hGate 0, QCircuitGate.cnot 1 2]) := by
  decide

/-- C2 amended: after any sequence of AppendGate calls on an initially empty
collapsed circuit, no two adjacent gates in the list share a target (hence no
adjacent pair can combine through the same-target rule); adjacent pairs that
satisfy CanPass do occur, so the stronger claimed local canonical form does
not hold. -/
theorem C2_adjacent_targets_differ (fuel : ℕ) (gs : List QCircuitGate) :
    NoAdjSameTarget (appendSeq fuel gs) := by
  unfold appendSeq
  have : ∀ acc, NoAdjSameTarget acc → NoAdjSameTarget (gs.foldl (appendGate fuel) acc) := by
    induction gs with
    | nil => intro acc h; exact h
    | cons x rest ih =>
      intro acc h
      simp only [List.foldl_cons]
      refine ih (appendGate fuel acc x) ?_
      exact appendGate_inv fuel acc x h
  exact this [] List.chain'_nil

/-- Execution state seen by QStabilizer::Dispatch: the tableau state proper
together with the queue of pending deferred operations that the spec's
dispatch-queue model would maintain. -/
structure DispatchState (σ : Type) where
  pending : List (σ → σ)
  state : σ

/-- QStabilizer::Dispatch as the given source defines it (qstabilizer.hpp line
66): the function object is invoked immediately and synchronously; nothing is
enqueued. -/
def Dispatch {σ : Type} (fn : σ → σ) (s : DispatchState σ) : DispatchState σ :=
  { s with state := fn s.state }

/-- Modelled from the spec: dispatching as deferred work on the
single-consumer queue (DispatchQueue::dispatch appends the closure and
returns immediately; the worker executes later, in submission order). -/
def dispatchDeferred {σ : Type} (fn : σ → σ) (s : DispatchState σ) : DispatchState σ :=
  { s with pending := s.pending ++ [fn] }

/-- C4 counterexample: QStabilizer::Dispatch is not the deferred enqueue the
claim describes; on a concrete state it mutates the tableau immediately and
leaves the queue untouched, while the deferred model would enqueue and leave
the state unchanged. -/
theorem C4_counterexample :
    Dispatch Nat.succ ⟨[], 0⟩ ≠ dispatchDeferred Nat.succ ⟨[], 0⟩ := by
  intro h
  have h2 := congrArg DispatchState.state h
  simp [Dispatch, dispatchDeferred] at h2

/-- C4 amended: in this source QStabilizer::Dispatch executes the gate
closure synchronously — the state is updated at once and no work is ever
enqueued, so no queue drain is needed before reads. -/
theorem C4_dispatch_synchronous {σ : Type} (fn : σ → σ) (s : DispatchState σ) :
    (Dispatch fn s).pending = s.pending ∧ (Dispatch fn s).state = fn s.state :=
  ⟨rfl, rfl⟩

/-- QStabilizer::MCMtrx (qstabilizer.hpp lines 429-442), parametrized by the
semantic actions of MCPhase and MCInvert (whose bodies live in
qstabilizer.cpp, not among the given sources).  The second component records
whether std::domain_error was thrown; the throw happens before any mutation,
so the state is returned unchanged in that case.  IS_NORM_0 is modelled as
exact comparison with zero. -/
def MCMtrx {σ : Type} (mcPhase mcInvert : List ℕ → CQ → CQ → ℕ → σ → σ)
    (controls : List ℕ) (m : Mat2) (target : ℕ) (s : σ) : σ × Bool :=
  if m.e01 = 0 ∧ m.e10 = 0 then (mcPhase controls m.e00 m.e11 target s, false)
  else if m.e00 = 0 ∧ m.e11 = 0 then (mcInvert controls m.e01 m.e10 target s, false)
  else (s, true)

/-- QStabilizer::MACMtrx (qstabilizer.hpp lines 443-456): identical branch
structure delegating to the anti-controlled MACPhase and MACInvert. -/
def MACMtrx {σ : Type} (macPhase macInvert : List ℕ → CQ → CQ → ℕ → σ → σ)
    (controls : List ℕ) (m : Mat2) (target : ℕ) (s : σ) : σ × Bool :=
  if m.e01 = 0 ∧ m.e10 = 0 then (macPhase controls m.e00 m.e11 target s, false)
  else if m.e00 = 0 ∧ m.e11 = 0 then (macInvert controls m.e01 m.e10 target s, false)
  else (s, true)

/-- C5: MCMtrx (resp. MACMtrx) with both off-diagonal entries zero delegates
to MCPhase (MACPhase) on the diagonal entries; with both diagonal entries
zero (and not the previous case, which takes priority) it delegates to
MCInvert (MACInvert) on the anti-diagonal entries; with any other matrix it
raises DomainError and leaves the tableau state unchanged. -/
theorem C5_mcmtrx_dispatch {σ : Type}
    (mcPhase mcInvert macPhase macInvert : List ℕ → CQ → CQ → ℕ → σ → σ)
    (controls : List ℕ) (m : Mat2) (target : ℕ) (s : σ) :
    (m.e01 = 0 ∧ m.e10 = 0 →
      MCMtrx mcPhase mcInvert controls m target s =
        (mcPhase controls m.e00 m.e11 target s, false) ∧
      MACMtrx macPhase macInvert controls m target s =
        (macPhase controls m.e00 m.e11 target s, false)) ∧
    (¬(m.e01 = 0 ∧ m.e10 = 0) → m.e00 = 0 ∧ m.e11 = 0 →
      MCMtrx mcPhase mcInvert controls m target s =
        (mcInvert controls m.e01 m.e10 target s, false) ∧
      MACMtrx macPhase macInvert controls m target s =
        (macInvert controls m.e01 m.e10 target s, false)) ∧
    (¬(m.e01 = 0 ∧ m.e10 = 0) → ¬(m.e00 = 0 ∧ m.e11 = 0) →
      MCMtrx mcPhase mcInvert controls m target s = (s, true) ∧
      MACMtrx macPhase macInvert controls m target s = (s, true)) := by
  refine ⟨fun hd => ?_, fun hnd ha => ?_, fun hnd hna => ?_⟩
  · constructor <;> simp [MCMtrx, MACMtrx, hd]
  · constructor <;> simp [MCMtrx, MACMtrx, hnd, ha]
  · constructor <;> simp [MCMtrx, MACMtrx, hnd, hna]

/-- C5 witness: the Hadamard matrix is neither diagonal nor anti-diagonal, so
MCMtrx raises DomainError and hands back the state (here 7) unchanged. -/
theorem C5_mcmtrx_dispatch_witness :
    MCMtrx (σ := ℕ) (fun _ _ _ _ s => s) (fun _ _ _ _ s => s)
        [0] Mat2.hadamard 1 7 = (7, true) :=
  ((C5_mcmtrx_dispatch (σ := ℕ) (fun _ _ _ _ s => s) (fun _ _ _ _ s => s)
      (fun _ _ _ _ s => s) (fun _ _ _ _ s => s) [0] Mat2.hadamard 1 7).2.2
    (by decide) (by decide)).1

/-- One tableau row: X and Z components as bitmasks over the qubit columns,
and the phase exponent r (0..3 meaning the phase i^r). -/
structure StabRow where
  x : ℕ
  z : ℕ
  r : ℕ
deriving DecidableEq

/-- Stabilizer tableau state (spec section 3, data model C4): rows 0..n-1 are
destabilizers, n..2n-1 stabilizers, row 2n scratch; the three per-row vectors
of the C++ code are fused into one row record.  The global-phase bookkeeping
fields of QStabilizer are carried alongside. -/
structure Stab where
  qubitCount : ℕ
  rows : List StabRow
  phaseOffset : CQ
  isUnitarityBroken : Bool
  randGlobalPhase : Bool
deriving DecidableEq

/-- QStabilizer::NormalizeState (qstabilizer.hpp lines 395-401): the norm and
threshold arguments are ignored; when randGlobalPhase is false the phase
offset is multiplied by polar(1, phaseArg), modelled by the abstract unit
complex phaseFac; nothing else is touched. -/
def NormalizeState (nrm normThresh : Dy) (phaseFac : CQ) (s : Stab) : Stab :=
  if s.randGlobalPhase then s else { s with phaseOffset := s.phaseOffset * phaseFac }

/-- A one-qubit tableau for the state |0> with phase tracking on. -/
def stabOne : Stab := ⟨1, [⟨1, 0, 0⟩, ⟨0, 1, 0⟩, ⟨0, 0, 0⟩], 1, false, false⟩

/-- C6 counterexample: NormalizeState with a negligible (zero) norm argument
does not set isUnitarityBroken; the flag stays false. -/
theorem C6_counterexample :
    (NormalizeState 0 0 1 stabOne).isUnitarityBroken = false := by decide

/-- C6 amended: NormalizeState never touches isUnitarityBroken (nor the
tableau rows or qubit count), whatever the norm argument; its only effect is
to multiply phaseOffset by the polar phase factor when randGlobalPhase is
false. -/
theorem C6_normalizeState_effect (nrm normThresh : Dy) (phaseFac : CQ) (s : Stab) :
    (NormalizeState nrm normThresh phaseFac s).isUnitarityBroken = s.isUnitarityBroken ∧
    (NormalizeState nrm normThresh phaseFac s).rows = s.rows ∧
    (NormalizeState nrm normThresh phaseFac s).qubitCount = s.qubitCount ∧
    (NormalizeState nrm normThresh phaseFac s).phaseOffset =
      (if s.randGlobalPhase then s.phaseOffset else s.phaseOffset * phaseFac) := by
  unfold NormalizeState
  by_cases h : s.randGlobalPhase <;> simp [h]

/-- Validity test of the phase-repair loop in QStabilizer::ParFor
(qstabilizer.hpp lines 95-103): the pre-state amplitude at perm and the
post-state amplitude at perm (XORed with 2^t when invert-like) are both
non-negligible.  Negligibility (norm <= FP_NORM_EPSILON) is modelled as exact
zero. -/
def parForValid (preAmp postAmp : ℕ → CQ) (isInvert : Bool) (t : ℕ) (p : ℕ) : Bool :=
  preAmp p != 0 && postAmp (if isInvert then p ^^^ 2 ^ t else p) != 0

/-- Phase-repair step of QStabilizer::ParFor (qstabilizer.hpp lines 68-109),
abstracted over the amplitude oracles of the cloned pre-state and the mutated
post-state (GetAmplitude's body is in qstabilizer.cpp, not among the given
sources) and over the complex modulus cabs.  When the gate is phase-aware and
the global phase is tracked, isInvert is or-ed with IsSeparableZ(target) and
the first valid permutation multiplies phaseOffset once by
(oAmp * abs nAmp) / (nAmp * abs oAmp), where nAmp is the post-state amplitude
at perm XOR 2^t in the invert-like case. -/
def parForPhase (cabs : CQ → CQ) (preAmp postAmp : ℕ → CQ)
    (isPhaseAware randGlobalPhase isInvertIn isSepZ : Bool)
    (t n : ℕ) (phaseOffset : CQ) : CQ :=
  if isPhaseAware && !randGlobalPhase then
    let isInvert := isInvertIn || isSepZ
    match (List.range (2 ^ n)).find? (parForValid preAmp postAmp isInvert t) with
    | some p =>
      let pp := if isInvert then p ^^^ 2 ^ t else p
      phaseOffset * ((preAmp p * cabs (postAmp pp)) / (postAmp pp * cabs (preAmp p)))
    | none => phaseOffset
  else phaseOffset

/-- Modelled from the spec: the phase update as claim C3 words it — pick a
permutation with non-negligible amplitude in both the pre- and the
post-state, and multiply phaseOffset by the formula taken at that same
permutation in both states. -/
def parForPhaseClaim (cabs : CQ → CQ) (preAmp postAmp : ℕ → CQ)
    (isPhaseAware randGlobalPhase : Bool) (n : ℕ) (phaseOffset : CQ) : CQ :=
  if isPhaseAware && !randGlobalPhase then
    match (List.range (2 ^ n)).find? (fun p => preAmp p != 0 && postAmp p != 0) with
    | some p =>
      phaseOffset * ((preAmp p * cabs (postAmp p)) / (postAmp p * cabs (preAmp p)))
    | none => phaseOffset
  else phaseOffset

/-- Pre-state amplitudes of |0> on one qubit. -/
def ampPreC3 : ℕ → CQ := fun p => if p = 0 then 1 else 0

/-- Post-state amplitudes i * |1> on one qubit (an invert-like gate with a
phase applied to |0>). -/
def ampPostC3 : ℕ → CQ := fun p => if p = 1 then CQ.iu else 0

/-- C3 counterexample: with the target reported as a Z eigenstate
(IsSeparableZ true), ParFor compares the pre-amplitude at p with the
post-amplitude at p XOR 2^t — not at the same permutation p.  On the concrete
state |0> mapped to i |1>, the code multiplies phaseOffset by 1/i = -i, while
the claim's same-permutation procedure finds no valid permutation at all and
leaves phaseOffset at 1. -/
theorem C3_counterexample :
    parForPhase (fun _ => 1) ampPreC3 ampPostC3 true false false true 0 1 1 ≠
      parForPhaseClaim (fun _ => 1) ampPreC3 ampPostC3 true false 1 1 := by
  decide

/-- C3 amended: when randGlobalPhase is false and the gate is phase-aware,
ParFor clones the pre-state before mutating, then multiplies phaseOffset by
(oldAmp(p) * abs (newAmp(q))) / (newAmp(q) * abs (oldAmp(p))) where p is the
first permutation valid in the scan and q = p XOR 2^t when the gate is
invert-like or IsSeparableZ(t) holds, q = p otherwise. -/
theorem C3_parfor_phase_update (cabs : CQ → CQ) (preAmp postAmp : ℕ → CQ)
    (isInvertIn isSepZ : Bool) (t n : ℕ) (phaseOffset : CQ) (p : ℕ)
    (hfind : (List.range (2 ^ n)).find?
        (parForValid preAmp postAmp (isInvertIn || isSepZ) t) = some p) :
    parForPhase cabs preAmp postAmp true false isInvertIn isSepZ t n phaseOffset =
      phaseOffset *
        ((preAmp p * cabs (postAmp (if isInvertIn || isSepZ then p ^^^ 2 ^ t else p))) /
          (postAmp (if isInvertIn || isSepZ then p ^^^ 2 ^ t else p) * cabs (preAmp p))) := by
  unfold parForPhase
  simp [hfind]

/-- C3 amended witness: on the concrete |0> to i |1> instance the scan finds
p = 0, the invert-like branch reads the post-amplitude at 1, and the phase
offset becomes 1/i = -i. -/
theorem C3_parfor_phase_update_witness :
    parForPhase (fun _ => 1) ampPreC3 ampPostC3 true false false true 0 1 1 =
      1 * ((ampPreC3 0 * (fun (_ : CQ) => (1 : CQ)) (ampPostC3 (if false || true then 0 ^^^ 2 ^ 0 else 0))) /
        (ampPostC3 (if false || true then 0 ^^^ 2 ^ 0 else 0) * (fun (_ : CQ) => (1 : CQ)) (ampPreC3 0))) :=
  C3_parfor_phase_update (fun _ => 1) ampPreC3 ampPostC3 false true 0 1 1 0 (by decide)

/-- An operation emitted to the underlying simulator by QCircuit::Run
(qcircuit.cpp lines 208-234): Mtrx, Swap, UCMtrx with one control pattern, or
UniformlyControlledSingleBit. -/
inductive SimOp where
  | mtrx (m : Mat2) (t : ℕ)
  | swapOp (a b : ℕ)
  | ucmtrx (controls : List ℕ) (m : Mat2) (t : ℕ) (pattern : ℕ)
  | ucsb (controls : List ℕ) (t : ℕ) (payloads : List Mat2)
deriving DecidableEq

/-- The null shared_ptr payload std::map::operator[] default-inserts for a
missing key; its matrix content is not meaningful (the C++ would dereference
a null pointer), so it is modelled as the zero matrix. -/
def nullMat : Mat2 := ⟨0, 0, 0, 0⟩

namespace QCircuitGate

/-- Modelled from the spec: QCircuitGate::MakeUniformlyControlledPayload
(implementation missing from the given sources): the 2^controls matrices in
control-pattern order, filling missing keys with identity. -/
def MakeUniformlyControlledPayload (g : QCircuitGate) : List Mat2 :=
  (List.range (2 ^ g.controls.length)).map fun k => (g.payloads.lookup k).getD Mat2.idm

end QCircuitGate

/-- Lowering of a single gate to a simulator call (qcircuit.cpp lines 208-234):
no controls emits Mtrx on payload 0; no payloads emits Swap(control, target);
a single payload emits UCMtrx; otherwise UniformlyControlledSingleBit. -/
def emitGate (g : QCircuitGate) : SimOp :=
  if g.controls = [] then SimOp.mtrx ((g.payloads.lookup 0).getD nullMat) g.target
  else if g.payloads = [] then SimOp.swapOp (g.controls.headD 0) g.target
  else if g.payloads.length = 1 then
    SimOp.ucmtrx g.controls (g.payloads.headD (0, nullMat)).2 g.target
      (g.payloads.headD (0, nullMat)).1
  else SimOp.ucsb g.controls g.target g.MakeUniformlyControlledPayload

/-- The consecutive-triple test of QCircuit::Run (qcircuit.cpp lines 179-195):
three CNOTs with the middle one reversed, i.e. CNOT(a,b), CNOT(b,a),
CNOT(a,b). -/
def tripleMatch (a b c : QCircuitGate) : Bool :=
  a.IsCnot && b.IsCnot && c.IsCnot &&
    b.target == a.controls.headD 0 && a.target == b.controls.headD 0 &&
    c.target == a.target && a.controls.headD 0 == c.controls.headD 0

/-- The CNOT-triplet collapse scan of QCircuit::Run (qcircuit.cpp lines
175-205) building the local emission list: a matched triple is replaced by
one swap-encoded gate and the scan advances past it (stopping the main loop
early when fewer than three gates remain, which then pass through
unchanged); an unmatched head is copied and the scan moves on by one. -/
def collapse3 : List QCircuitGate → List QCircuitGate
  | a :: b :: c :: rest =>
    if tripleMatch a b c then
      QCircuitGate.mkSwap a.target (a.controls.headD 0) ::
        (if rest.length < 3 then rest else collapse3 rest)
    else a :: collapse3 (b :: c :: rest)
  | l => l

/-- A circuit: qubit count and ordered gate list (the collapsed-mode data of
QCircuit). -/
structure QCircuit where
  qubitCount : ℕ
  gates : List QCircuitGate
deriving DecidableEq

/-- The only mutation QCircuit::Run can make to a stored gate: emitting an
uncontrolled gate reads `payloads[0]` through std::map::operator[], which
default-inserts a null payload when key 0 is missing. -/
def touchGate (g : QCircuitGate) : QCircuitGate :=
  if g.controls = [] ∧ (g.payloads.lookup 0).isNone then
    { g with payloads := (0, nullMat) :: g.payloads }
  else g

/-- QCircuit::Run (qcircuit.cpp lines 163-235) at the circuit level: the local
emission list nGates is the gate list when shorter than three gates and the
CNOT-triplet-collapsed list otherwise; each entry lowers to one simulator
call.  The returned circuit reflects the only possible in-place mutation
(default-inserted payload 0 on emitted uncontrolled gates; triple members all
carry controls, so mapping over the whole list is exact).  The Allocate call
touches only the simulator. -/
def runQC (c : QCircuit) : QCircuit × List SimOp :=
  let nGates := if c.gates.length < 3 then c.gates else collapse3 c.gates
  ({ c with gates := c.gates.map touchGate }, nGates.map emitGate)

/-- Control pattern of permutation p over the given control qubits: bit j of
the pattern is bit controls[j] of p. -/
def patOf (controls : List ℕ) (p : ℕ) : ℕ :=
  (List.range controls.length).foldl
    (fun acc j => acc + if p.testBit (controls.getD j 0) then 2 ^ j else 0) 0

/-- Dense action of a single-qubit matrix on target t of a state vector
indexed by permutations. -/
def applyMtrx (m : Mat2) (t : ℕ) (ψ : ℕ → CQ) : ℕ → CQ := fun p =>
  if p.testBit t then m.e10 * ψ (p ^^^ 2 ^ t) + m.e11 * ψ p
  else m.e00 * ψ p + m.e01 * ψ (p ^^^ 2 ^ t)

/-- The permutation exchanging bits a and b of p. -/
def swapBits (a b p : ℕ) : ℕ :=
  if p.testBit a = p.testBit b then p else p ^^^ (2 ^ a ^^^ 2 ^ b)

/-- Reference semantics of the simulator operations on a dense state. -/
def applyOp : SimOp → (ℕ → CQ) → (ℕ → CQ)
  | .mtrx m t, ψ => applyMtrx m t ψ
  | .swapOp a b, ψ => fun p => ψ (swapBits a b p)
  | .ucmtrx ctrls m t pat, ψ => fun p => if patOf ctrls p = pat then applyMtrx m t ψ p else ψ p
  | .ucsb ctrls t pls, ψ => fun p => applyMtrx (pls.getD (patOf ctrls p) Mat2.idm) t ψ p

/-- Sequential application of emitted operations, first op first. -/
def applyOps (ops : List SimOp) (ψ : ℕ → CQ) : ℕ → CQ :=
  ops.foldl (fun f op => applyOp op f) ψ

/-- The basis permutation a CNOT with control c and target t effects. -/
def cnotPerm (c t p : ℕ) : ℕ := if p.testBit c then p ^^^ 2 ^ t else p

theorem testBit_xor_pow_self (p t : ℕ) : (p ^^^ 2 ^ t).testBit t = !p.testBit t := by
  rw [Nat.testBit_xor, Nat.testBit_two_pow_self, Bool.xor_true]

theorem testBit_xor_pow_ne (p t i : ℕ) (h : t ≠ i) :
    (p ^^^ 2 ^ t).testBit i = p.testBit i := by
  rw [Nat.testBit_xor, Nat.testBit_two_pow_of_ne h, Bool.xor_false]

theorem xor_pow_cancel (p t : ℕ) : p ^^^ 2 ^ t ^^^ 2 ^ t = p := by
  rw [Nat.xor_assoc, Nat.xor_self, Nat.xor_zero]

/-- Key permutation identity behind the CNOT-triplet collapse:
CNOT(a,b); CNOT(b,a); CNOT(a,b) maps a basis permutation exactly as the bit
swap of a and b (the leftmost CNOT in the composition acts last). -/
theorem cnot_triple_perm (a b : ℕ) (hab : a ≠ b) (p : ℕ) :
    cnotPerm a b (cnotPerm b a (cnotPerm a b p)) = swapBits a b p := by
  unfold cnotPerm swapBits
  by_cases ha : p.testBit a = true <;> by_cases hb : p.testBit b = true
  · have h1 : (p ^^^ 2 ^ b).testBit b = false := by
      rw [testBit_xor_pow_self, hb]; rfl
    have h2 : (p ^^^ 2 ^ b).testBit a = true := by
      rw [testBit_xor_pow_ne p b a (Ne.symm hab)]; exact ha
    simp [ha, hb, h1, h2, xor_pow_cancel]
  · have hb' : p.testBit b = false := by simpa using hb
    have h1 : (p ^^^ 2 ^ b).testBit b = true := by
      rw [testBit_xor_pow_self, hb']; rfl
    have h2 : (p ^^^ 2 ^ b ^^^ 2 ^ a).testBit a = false := by
      rw [testBit_xor_pow_self, testBit_xor_pow_ne p b a (Ne.symm hab), ha]; rfl
    simp only [ha, if_true, h1, if_true, h2, Bool.false_eq_true, if_false]
    rw [hb', Nat.xor_assoc]
    simp [Nat.xor_comm (2 ^ b) (2 ^ a)]
  · have ha' : p.testBit a = false := by simpa using ha
    have h1 : (p ^^^ 2 ^ a).testBit b = true := by
      rw [testBit_xor_pow_ne p a b hab]; exact hb
    have h2 : (p ^^^ 2 ^ a).testBit a = true := by
      rw [testBit_xor_pow_self, ha']; rfl
    simp only [ha', Bool.false_eq_true, if_false, hb, h1, if_true, h2]
    rw [Nat.xor_assoc]
  · have ha' : p.testBit a = false := by simpa using ha
    have hb' : p.testBit b = false := by simpa using hb
    simp [ha', hb']

theorem patOf_singleton (c p : ℕ) : patOf [c] p = if p.testBit c then 1 else 0 := by
  unfold patOf
  simp [List.range_succ]

/-- A length-one list is the singleton of its default head. -/
theorem eq_singleton_of_length_one {l : List ℕ} (h : l.length = 1) : l = [l.headD 0] := by
  cases l with
  | nil => cases h
  | cons x t =>
    cases t with
    | nil => rfl
    | cons y u => cases h

/-- Emission semantics of a CNOT-shaped gate: the controlled-X lowers to the
basis permutation cnotPerm. -/
theorem emit_cnot_sem (g : QCircuitGate) (hg : g.IsCnot = true) (ψ : ℕ → CQ) (p : ℕ) :
    applyOp (emitGate g) ψ p = ψ (cnotPerm (g.controls.headD 0) g.target p) := by
  obtain ⟨t, ctrls, pls⟩ := g
  unfold QCircuitGate.IsCnot at hg
  rw [Bool.and_eq_true] at hg
  obtain ⟨hlen, hpl⟩ := hg
  simp only [decide_eq_true_eq] at hlen hpl
  obtain ⟨c0, hc⟩ : ∃ c0, ctrls = [c0] :=
    ⟨ctrls.headD 0, eq_singleton_of_length_one hlen⟩
  subst hpl
  subst hc
  show (if patOf [c0] p = 1 then applyMtrx Mat2.pauliX t ψ p else ψ p) =
    ψ (cnotPerm c0 t p)
  rw [patOf_singleton]
  unfold cnotPerm
  by_cases hbit : p.testBit c0 = true
  · simp only [hbit, if_true]
    unfold applyMtrx
    by_cases htb : p.testBit t = true
    · simp only [htb, if_true]
      exact CQ.one_mul_add_zero_mul (ψ (p ^^^ 2 ^ t)) (ψ p)
    · simp only [htb, Bool.false_eq_true, if_false]
      exact CQ.zero_mul_add_one_mul (ψ p) (ψ (p ^^^ 2 ^ t))
  · simp only [hbit, Bool.false_eq_true, if_false]
    simp

/-- Emission semantics of the swap-encoded gate. -/
theorem emit_swap_sem (t c : ℕ) (ψ : ℕ → CQ) (p : ℕ) :
    applyOp (emitGate (QCircuitGate.mkSwap t c)) ψ p = ψ (swapBits c t p) := rfl

/-- C7: in QCircuit::Run, three adjacent gates CNOT(a,b), CNOT(b,a), CNOT(a,b)
reached by the scan are lowered as the single swap-encoded gate on (a,b)
(one Swap call to the simulator), and on every state and permutation the
simulator output of that swap equals the output of lowering the three CNOTs
directly. -/
theorem C7_cnot_triplet_collapse :
    (∀ a b c rest, tripleMatch a b c = true →
      collapse3 (a :: b :: c :: rest) =
        QCircuitGate.mkSwap a.target (a.controls.headD 0) ::
          (if rest.length < 3 then rest else collapse3 rest)) ∧
    (∀ a b c : QCircuitGate, tripleMatch a b c = true → a.target ∉ a.controls →
      ∀ (ψ : ℕ → CQ) (p : ℕ),
        applyOps [emitGate (QCircuitGate.mkSwap a.target (a.controls.headD 0))] ψ p =
          applyOps ([a, b, c].map emitGate) ψ p) := by
  constructor
  · intro a b c rest htrip
    simp [collapse3, htrip]
  · intro a b c htrip hni ψ p
    unfold tripleMatch at htrip
    simp only [Bool.and_eq_true, beq_iff_eq] at htrip
    obtain ⟨⟨⟨⟨⟨⟨ha, hb⟩, hc⟩, hbt⟩, hat⟩, hct⟩, hcc⟩ := htrip
    have hac : a.controls = [a.controls.headD 0] :=
      eq_singleton_of_length_one (by
        have := ha
        unfold QCircuitGate.IsCnot at this
        rw [Bool.and_eq_true] at this
        simpa using this.1)
    have hne : a.controls.headD 0 ≠ a.target := by
      intro h
      exact hni (by rw [hac, h]; simp)
    show applyOps [emitGate (QCircuitGate.mkSwap a.target (a.controls.headD 0))] ψ p = _
    have hlhs : applyOps [emitGate (QCircuitGate.mkSwap a.target (a.controls.headD 0))] ψ p =
        ψ (swapBits (a.controls.headD 0) a.target p) := rfl
    have hrhs : applyOps ([a, b, c].map emitGate) ψ p =
        ψ (cnotPerm (a.controls.headD 0) a.target
          (cnotPerm (b.controls.headD 0) b.target
            (cnotPerm (c.controls.headD 0) c.target p))) := by
      show applyOp (emitGate c) (applyOp (emitGate b) (applyOp (emitGate a) ψ)) p = _
      rw [emit_cnot_sem c hc, emit_cnot_sem b hb, emit_cnot_sem a ha]
    rw [hlhs, hrhs, hct, hbt, ← hat, ← hcc]
    exact congrArg ψ (cnot_triple_perm (a.controls.headD 0) a.target hne p).symm

/-- Delta state on permutation 1, used by the C7 witness. -/
def psiOne : ℕ → CQ := fun p => if p = 1 then 1 else 0

/-- C7 witness: the concrete triple CNOT(0,1), CNOT(1,0), CNOT(0,1) collapses
to the single swap-encoded gate on (1,0), whose simulator action on the
concrete state psiOne agrees with the three CNOTs at permutation 1. -/
theorem C7_cnot_triplet_collapse_witness :
    collapse3 [QCircuitGate.cnot 0 1, QCircuitGate.cnot 1 0, QCircuitGate.cnot 0 1] =
      [QCircuitGate.mkSwap 1 0] ∧
    applyOps [emitGate (QCircuitGate.mkSwap 1 0)] psiOne 1 =
      applyOps ([QCircuitGate.cnot 0 1, QCircuitGate.cnot 1 0,
        QCircuitGate.cnot 0 1].map emitGate) psiOne 1 := by
  constructor
  · have h := C7_cnot_triplet_collapse.1 (QCircuitGate.cnot 0 1) (QCircuitGate.cnot 1 0)
      (QCircuitGate.cnot 0 1) [] (by decide)
    simpa using h
  · exact C7_cnot_triplet_collapse.2 (QCircuitGate.cnot 0 1) (QCircuitGate.cnot 1 0)
      (QCircuitGate.cnot 0 1) (by decide) (by decide) psiOne 1

/-- C10: refuted by the source on a reachable input.  The claim says Run
never modifies the circuit it is called on.  On circuits whose uncontrolled
gates all carry their payload-0 entry Run is indeed read-only (the
CNOT-triplet collapse only shapes the locally built emission list), but
AppendGate itself produces circuits that violate that: appending H(0), H(0),
CNOT(0,1) leaves the uncontrolled, payload-less identity residue
⟨0, [], []⟩ in the stored list (the erase of qcircuit.cpp line 137 keeps the
combined gate).  Emitting that gate reads `gate->payloads[0]` through
std::map::operator[] (qcircuit.cpp line 212) on the shared stored gate
object, which default-inserts a null payload at key 0 (and then dereferences
the null pointer), so after Run the stored gate list differs from before the
call. -/
theorem C10_run_mutates_circuit :
    (runQC ⟨2, appendSeq 10 [QCircuitGate.hGate 0, QCircuitGate.hGate 0,
        QCircuitGate.cnot 0 1]⟩).1 ≠
      ⟨2, appendSeq 10 [QCircuitGate.hGate 0, QCircuitGate.hGate 0,
        QCircuitGate.cnot 0 1]⟩ := by
  decide

/-- One whitespace-separated token of the textual circuit format: an unsigned
integer (qubit counts, sizes, indices, payload keys) or a complex matrix
entry (streamed and re-read as one std::complex value). -/
inductive Tok where
  | n (v : ℕ)
  | c (z : CQ)
deriving DecidableEq

/-- Gate writer (operator<< on QCircuitGatePtr, qcircuit.cpp lines 19-42):
target, control count, controls in set order, payload count, then each
payload as key followed by its four matrix entries. -/
def serializeGate (g : QCircuitGate) : List Tok :=
  Tok.n g.target :: Tok.n g.controls.length :: g.controls.map Tok.n ++
    Tok.n g.payloads.length ::
      (g.payloads.flatMap fun p =>
        [Tok.n p.1, Tok.c p.2.e00, Tok.c p.2.e01, Tok.c p.2.e10, Tok.c p.2.e11])

/-- Circuit writer (operator<< on QCircuitPtr, qcircuit.cpp lines 75-86):
qubit count, gate count, then the gates in order. -/
def serializeCircuit (c : QCircuit) : List Tok :=
  Tok.n c.qubitCount :: Tok.n c.gates.length :: c.gates.flatMap serializeGate

/-- Insertion into the payload std::map through operator[]: sorted by key,
overwriting the value on an existing key. -/
def mapInsert : List (ℕ × Mat2) → ℕ → Mat2 → List (ℕ × Mat2)
  | [], k, v => [(k, v)]
  | (k0, v0) :: t, k, v =>
    if k < k0 then (k, v) :: (k0, v0) :: t
    else if k = k0 then (k0, v) :: t
    else (k0, v0) :: mapInsert t k v

/-- Gate-reader loop over the control tokens (operator>> lines 52-58): each
control index is inserted into the std::set. -/
def readControls : ℕ → List ℕ → List Tok → Option (List ℕ × List Tok)
  | 0, acc, ts => some (acc, ts)
  | k + 1, acc, ts =>
    match ts with
    | Tok.n v :: rest => readControls k (QCircuitGate.setInsert acc v) rest
    | _ => none

/-- Gate-reader loop over the payload tokens (operator>> lines 60-70): each
key is assigned a freshly read 4-entry matrix in the std::map. -/
def readPayloads : ℕ → List (ℕ × Mat2) → List Tok → Option (List (ℕ × Mat2) × List Tok)
  | 0, acc, ts => some (acc, ts)
  | k + 1, acc, ts =>
    match ts with
    | Tok.n key :: Tok.c m00 :: Tok.c m01 :: Tok.c m10 :: Tok.c m11 :: rest =>
      readPayloads k (mapInsert acc key ⟨m00, m01, m10, m11⟩) rest
    | _ => none

/-- Read one unsigned-integer token from the stream. -/
def readTokN : List Tok → Option (ℕ × List Tok)
  | Tok.n v :: rest => some (v, rest)
  | _ => none

/-- Gate reader (operator>> on QCircuitGatePtr, qcircuit.cpp lines 44-73),
starting from a freshly constructed gate with cleared payloads and empty
controls: target, control count, that many controls, payload count, that many
payload entries. -/
def parseGate (ts : List Tok) : Option (QCircuitGate × List Tok) :=
  (readTokN ts).bind fun pr1 =>
    (readTokN pr1.2).bind fun pr2 =>
      (readControls pr2.1 [] pr2.2).bind fun pr3 =>
        (readTokN pr3.2).bind fun pr4 =>
          (readPayloads pr4.1 [] pr4.2).bind fun pr5 =>
            some (⟨pr1.1, pr3.1, pr5.1⟩, pr5.2)

/-- Circuit-reader loop over the gate count (operator>> lines 94-101),
appending each freshly parsed gate. -/
def parseGates : ℕ → List QCircuitGate → List Tok → Option (List QCircuitGate × List Tok)
  | 0, acc, ts => some (acc, ts)
  | k + 1, acc, ts =>
    (parseGate ts).bind fun pr => parseGates k (acc ++ [pr.1]) pr.2

/-- Circuit reader (operator>> on QCircuitPtr, qcircuit.cpp lines 88-105):
qubit count, gate count, then the gates. -/
def parseCircuit (ts : List Tok) : Option (QCircuit × List Tok) :=
  (readTokN ts).bind fun pr1 =>
    (readTokN pr1.2).bind fun pr2 =>
      (parseGates pr2.1 [] pr2.2).bind fun pr3 =>
        some (⟨pr1.1, pr3.1⟩, pr3.2)

/-- The writer's stream precision as a function of the float width exponent
FPPOW (qcircuit.cpp lines 29-33): 36 significant digits above 64-bit Real, 17
for 64-bit, and the stream default (no setprecision call) below. -/
def streamPrecision (fppow : ℕ) : Option ℕ :=
  if 6 < fppow then some 36 else if 5 < fppow then some 17 else none

theorem setInsert_append (x : ℕ) :
    ∀ acc : List ℕ, (∀ y ∈ acc, y < x) → QCircuitGate.setInsert acc x = acc ++ [x] := by
  intro acc
  induction acc with
  | nil => intro _; rfl
  | cons h t ih =>
    intro hlt
    have hx : h < x := hlt h (by simp)
    unfold QCircuitGate.setInsert
    rw [if_neg (by omega), if_neg (by omega)]
    rw [ih (fun y hy => hlt y (by simp [hy]))]
    rfl

theorem foldl_setInsert_sorted :
    ∀ (l acc : List ℕ), List.Pairwise (· < ·) (acc ++ l) →
      List.foldl QCircuitGate.setInsert acc l = acc ++ l := by
  intro l
  induction l with
  | nil => intro acc _; simp
  | cons x rest ih =>
    intro acc hp
    have hax : ∀ y ∈ acc, y < x := by
      intro y hy
      exact (List.pairwise_append.mp hp).2.2 y hy x (by simp)
    rw [List.foldl_cons, setInsert_append x acc hax]
    rw [ih (acc ++ [x]) (by simpa using hp)]
    simp

theorem mapInsert_append (k : ℕ) (v : Mat2) :
    ∀ acc : List (ℕ × Mat2), (∀ y ∈ acc, y.1 < k) → mapInsert acc k v = acc ++ [(k, v)] := by
  intro acc
  induction acc with
  | nil => intro _; rfl
  | cons h t ih =>
    intro hlt
    have hx : h.1 < k := hlt h (by simp)
    show mapInsert (h :: t) k v = h :: t ++ [(k, v)]
    cases h with
    | mk k0 v0 =>
      unfold mapInsert
      rw [if_neg (by simp at hx; omega), if_neg (by simp at hx; omega)]
      rw [ih (fun y hy => hlt y (by simp [hy]))]
      rfl

theorem foldl_mapInsert_sorted :
    ∀ (l acc : List (ℕ × Mat2)),
      List.Pairwise (fun p q : ℕ × Mat2 => p.1 < q.1) (acc ++ l) →
      List.foldl (fun a p => mapInsert a p.1 p.2) acc l = acc ++ l := by
  intro l
  induction l with
  | nil => intro acc _; simp
  | cons x rest ih =>
    intro acc hp
    have hax : ∀ y ∈ acc, y.1 < x.1 := by
      intro y hy
      exact (List.pairwise_append.mp hp).2.2 y hy x (by simp)
    rw [List.foldl_cons, mapInsert_append x.1 x.2 acc hax]
    rw [ih (acc ++ [x]) (by simpa using hp)]
    simp

theorem readControls_spec :
    ∀ (l acc : List ℕ) (rest : List Tok),
      readControls l.length acc (l.map Tok.n ++ rest) =
        some (List.foldl QCircuitGate.setInsert acc l, rest) := by
  intro l
  induction l with
  | nil => intro acc rest; rfl
  | cons x t ih =>
    intro acc rest
    show readControls t.length (QCircuitGate.setInsert acc x) (t.map Tok.n ++ rest) =
      some (List.foldl QCircuitGate.setInsert (QCircuitGate.setInsert acc x) t, rest)
    exact ih (QCircuitGate.setInsert acc x) rest

theorem readPayloads_spec :
    ∀ (l : List (ℕ × Mat2)) (acc : List (ℕ × Mat2)) (rest : List Tok),
      readPayloads l.length acc
          ((l.flatMap fun p =>
            [Tok.n p.1, Tok.c p.2.e00, Tok.c p.2.e01, Tok.c p.2.e10, Tok.c p.2.e11]) ++ rest) =
        some (List.foldl (fun a p => mapInsert a p.1 p.2) acc l, rest) := by
  intro l
  induction l with
  | nil => intro acc rest; rfl
  | cons x t ih =>
    intro acc rest
    cases x with
    | mk k m =>
      cases m with
      | mk m00 m01 m10 m11 =>
        show readPayloads t.length (mapInsert acc k ⟨m00, m01, m10, m11⟩)
            ((t.flatMap fun p =>
              [Tok.n p.1, Tok.c p.2.e00, Tok.c p.2.e01, Tok.c p.2.e10, Tok.c p.2.e11]) ++ rest) =
          some (List.foldl (fun a p => mapInsert a p.1 p.2)
            (mapInsert acc k ⟨m00, m01, m10, m11⟩) t, rest)
        exact ih (mapInsert acc k ⟨m00, m01, m10, m11⟩) rest

/-- A well-formed gate: controls strictly sorted (std::set invariant) and
payload keys strictly sorted (std::map invariant). -/
def GateWF (g : QCircuitGate) : Prop :=
  List.Pairwise (· < ·) g.controls ∧
    List.Pairwise (fun p q : ℕ × Mat2 => p.1 < q.1) g.payloads

instance (g : QCircuitGate) : Decidable (GateWF g) :=
  inferInstanceAs (Decidable (_ ∧ _))

theorem parseGate_spec (g : QCircuitGate) (hwf : GateWF g) (rest : List Tok) :
    parseGate (serializeGate g ++ rest) = some (g, rest) := by
  obtain ⟨t, ctrls, pls⟩ := g
  obtain ⟨hc, hp⟩ := hwf
  have hctl : List.foldl QCircuitGate.setInsert [] ctrls = ctrls := by
    simpa using foldl_setInsert_sorted ctrls [] (by simpa using hc)
  have hpls : List.foldl (fun a p => mapInsert a p.1 p.2) [] pls = pls := by
    simpa using foldl_mapInsert_sorted pls [] (by simpa using hp)
  simp only [serializeGate, parseGate, List.cons_append, List.append_assoc,
    readTokN, Option.some_bind, readControls_spec, hctl, readPayloads_spec, hpls]

theorem parseGates_spec :
    ∀ (gs acc : List QCircuitGate) (rest : List Tok),
      (∀ g ∈ gs, GateWF g) →
      parseGates gs.length acc (gs.flatMap serializeGate ++ rest) =
        some (acc ++ gs, rest) := by
  intro gs
  induction gs with
  | nil => intro acc rest _; simp [parseGates]
  | cons g t ih =>
    intro acc rest hwf
    show parseGates (t.length + 1) acc ((serializeGate g ++ t.flatMap serializeGate) ++ rest) = _
    unfold parseGates
    rw [List.append_assoc, parseGate_spec g (hwf g (by simp))]
    simp only [Option.some_bind]
    rw [ih (acc ++ [g]) rest (fun x hx => hwf x (by simp [hx]))]
    simp

/-- C8: parsing the textual serialization of a circuit yields the circuit
back, gate for gate and payload for payload, consuming the whole stream, for
every circuit whose per-gate containers respect the std::set / std::map
sortedness invariants; and the writer emits 17 significant decimal digits at
FPPOW 6 (64-bit Real) and 36 at FPPOW 7 (128-bit Real), the precisions that
round-trip those widths. -/
theorem C8_serialization_roundtrip (c : QCircuit) (hwf : ∀ g ∈ c.gates, GateWF g) :
    parseCircuit (serializeCircuit c) = some (c, []) ∧
      streamPrecision 6 = some 17 ∧ streamPrecision 7 = some 36 := by
  refine ⟨?_, rfl, rfl⟩
  have hg : parseGates c.gates.length [] (c.gates.flatMap serializeGate) = some (c.gates, []) := by
    simpa using parseGates_spec c.gates [] [] hwf
  simp only [serializeCircuit, parseCircuit, readTokN, Option.some_bind, hg]

/-- A concrete two-qubit circuit with an uncontrolled Hadamard, a CNOT and a
swap-encoded gate. -/
def circC8 : QCircuit :=
  ⟨2, [QCircuitGate.hGate 0, QCircuitGate.cnot 0 1, QCircuitGate.mkSwap 1 0]⟩

/-- C8 witness: a concrete two-qubit circuit with an uncontrolled Hadamard, a
CNOT and a swap-encoded gate survives the round trip unchanged. -/
theorem C8_serialization_roundtrip_witness :
    parseCircuit (serializeCircuit circC8) = some (circC8, []) ∧
      streamPrecision 6 = some 17 ∧ streamPrecision 7 = some 36 :=
  C8_serialization_roundtrip circC8 (by decide)

/-- Modelled from the spec: the per-row action of CNOT(c,t) on the tableau
(spec 4.3.1; the body lives in qstabilizer.cpp, absent from the given
sources): R flips by 2 if X[c] and Z[t] and not (X[t] xor Z[c]); then
X[t] ^= X[c] and Z[c] ^= Z[t]. -/
def cnotRow (c t : ℕ) (row : StabRow) : StabRow :=
  let xc := row.x.testBit c
  let zt := row.z.testBit t
  let xt := row.x.testBit t
  let zc := row.z.testBit c
  { x := if xc then row.x ^^^ 2 ^ t else row.x
    z := if zt then row.z ^^^ 2 ^ c else row.z
    r := if xc && zt && (xt == zc) then row.r ^^^ 2 else row.r }

/-- Apply f to the first k rows, leaving the rest (the scratch row) alone. -/
def updRows (f : StabRow → StabRow) : ℕ → List StabRow → List StabRow
  | _, [] => []
  | 0, rs => rs
  | k + 1, row :: rs => f row :: updRows f k rs

/-- Modelled from the spec: QStabilizer::CNOT mutates every non-scratch row
(indices below 2n) by the cnotRow update. -/
def CNOTgate (c t : ℕ) (s : Stab) : Stab :=
  { s with rows := updRows (cnotRow c t) (2 * s.qubitCount) s.rows }

/-- Modelled from the spec: Swap(a,b) = CNOT(a,b) CNOT(b,a) CNOT(a,b)
(spec 4.3.1); Swap is not phase-aware, so phaseOffset is untouched. -/
def SwapGate (a b : ℕ) (s : Stab) : Stab := CNOTgate a b (CNOTgate b a (CNOTgate a b s))

/-- QStabilizer::TrySeparate(qubit1, qubit2) (qstabilizer.hpp lines 461-472),
with CanDecomposeDispose (whose body is in the missing qstabilizer.cpp)
abstracted as a predicate on the swapped tableau: swap the pair to positions
0 and 1, test 2 qubits at 0, then apply the same two swaps again in the same
order. -/
def TrySeparate2 (canDD : Stab → Bool) (q1 q2 : ℕ) (s : Stab) : Bool × Stab :=
  let s1 := SwapGate q2 1 (SwapGate q1 0 s)
  let ret := canDD s1
  (ret, SwapGate q2 1 (SwapGate q1 0 s1))

/-- A three-qubit tableau (destabilizers X0 X1 X2, stabilizers -Z0, Z1, Z2,
zero scratch row), the basis state with qubit 0 set. -/
def stab3 : Stab :=
  ⟨3, [⟨1, 0, 0⟩, ⟨2, 0, 0⟩, ⟨4, 0, 0⟩, ⟨0, 1, 2⟩, ⟨0, 2, 0⟩, ⟨0, 4, 0⟩, ⟨0, 0, 0⟩],
    1, false, true⟩

/-- C9 counterexample: TrySeparate(1, 2) does not restore the tableau.  The
two swaps are re-applied in the same order rather than inverted, and with
q1 = 1 overlapping position 1 the net effect is a 3-cycle of the columns, so
the state after the call differs from the state before. -/
theorem C9_counterexample : (TrySeparate2 (fun _ => true) 1 2 stab3).2 ≠ stab3 := by
  decide

theorem testBit_swapBits (a b p i : ℕ) :
    (swapBits a b p).testBit i =
      if i = a then p.testBit b else if i = b then p.testBit a else p.testBit i := by
  unfold swapBits
  by_cases heq : p.testBit a = p.testBit b
  · simp only [heq, if_true]
    by_cases hia : i = a
    · subst hia; simp [heq]
    · by_cases hib : i = b
      · subst hib; simp [heq, hia]
      · simp [hia, hib]
  · have hab : a ≠ b := fun h => heq (by rw [h])
    simp only [heq, if_false]
    by_cases hia : i = a
    · subst hia
      rw [Nat.testBit_xor, Nat.testBit_xor, Nat.testBit_two_pow_self,
        Nat.testBit_two_pow_of_ne (Ne.symm hab), if_pos rfl]
      cases hpa : p.testBit i <;> cases hpb : p.testBit b <;>
        simp_all
    · by_cases hib : i = b
      · subst hib
        rw [Nat.testBit_xor, Nat.testBit_xor, Nat.testBit_two_pow_of_ne hab,
          Nat.testBit_two_pow_self, if_neg hia, if_pos rfl]
        cases hpa : p.testBit a <;> cases hpb : p.testBit i <;>
          simp_all
      · rw [Nat.testBit_xor, Nat.testBit_xor,
          Nat.testBit_two_pow_of_ne (fun h => hia h.symm),
          Nat.testBit_two_pow_of_ne (fun h => hib h.symm)]
        simp [hia, hib]

theorem swapBits_involution (a b p : ℕ) : swapBits a b (swapBits a b p) = p := by
  apply Nat.eq_of_testBit_eq
  intro i
  rw [testBit_swapBits, testBit_swapBits, testBit_swapBits]
  by_cases hia : i = a <;> by_cases hib : i = b <;>
    simp [hia, hib] <;> simp_all [testBit_swapBits]

theorem swapBits_comm_disjoint (a b c d p : ℕ)
    (hac : a ≠ c) (had : a ≠ d) (hbc : b ≠ c) (hbd : b ≠ d) :
    swapBits a b (swapBits c d p) = swapBits c d (swapBits a b p) := by
  have hca := Ne.symm hac
  have hda := Ne.symm had
  have hcb := Ne.symm hbc
  have hdb := Ne.symm hbd
  apply Nat.eq_of_testBit_eq
  intro i
  simp only [testBit_swapBits]
  by_cases hia : i = a <;> by_cases hib : i = b <;> by_cases hic : i = c <;>
    by_cases hid : i = d <;> simp_all

theorem nat_xor_cancel_left (c m : ℕ) : c ^^^ (m ^^^ c) = m := by
  rw [Nat.xor_comm m c, ← Nat.xor_assoc, Nat.xor_self, Nat.zero_xor]

theorem nat_xor_rot1 (c d m : ℕ) : c ^^^ (m ^^^ d) = m ^^^ (c ^^^ d) := by
  rw [← Nat.xor_assoc, Nat.xor_comm c m, Nat.xor_assoc]

theorem nat_xor_rot2 (c d m : ℕ) : d ^^^ (m ^^^ c) = m ^^^ (c ^^^ d) := by
  rw [← Nat.xor_assoc, Nat.xor_comm d m, Nat.xor_assoc, Nat.xor_comm d c]

/-- Three CNOTs in alternating directions act on one tableau row exactly as
the column swap of a and b, leaving the phase bits unchanged. -/
theorem swapRow_eq (a b : ℕ) (hab : a ≠ b) (row : StabRow) :
    cnotRow a b (cnotRow b a (cnotRow a b row)) =
      ⟨swapBits a b row.x, swapBits a b row.z, row.r⟩ := by
  obtain ⟨x, z, r⟩ := row
  have hba := Ne.symm hab
  have e1 : ∀ m : ℕ, (m ^^^ 2 ^ a).testBit b = m.testBit b := fun m =>
    testBit_xor_pow_ne m a b hab
  have e2 : ∀ m : ℕ, (m ^^^ 2 ^ b).testBit a = m.testBit a := fun m =>
    testBit_xor_pow_ne m b a hba
  by_cases hxa : x.testBit a = true <;> by_cases hxb : x.testBit b = true <;>
    by_cases hza : z.testBit a = true <;> by_cases hzb : z.testBit b = true <;>
    simp_all [cnotRow, testBit_xor_pow_self, swapBits, xor_pow_cancel, e1, e2,
      Nat.xor_assoc, Nat.xor_comm, Nat.xor_self, Nat.xor_zero] <;>
    (repeat' apply And.intro) <;>
    first
      | rfl
      | apply nat_xor_cancel_left
      | apply nat_xor_rot1
      | apply nat_xor_rot2

theorem updRows_comp (f g : StabRow → StabRow) :
    ∀ (k : ℕ) (rs : List StabRow),
      updRows f k (updRows g k rs) = updRows (fun r => f (g r)) k rs := by
  intro k rs
  induction rs generalizing k with
  | nil => cases k <;> rfl
  | cons row rest ih =>
    cases k with
    | zero => rfl
    | succ n =>
      show f (g row) :: updRows f n (updRows g n rest) = f (g row) :: updRows _ n rest
      rw [ih n]

theorem updRows_congr (f g : StabRow → StabRow) (h : ∀ r, f r = g r) :
    ∀ (k : ℕ) (rs : List StabRow), updRows f k rs = updRows g k rs := by
  intro k rs
  induction rs generalizing k with
  | nil => cases k <;> rfl
  | cons row rest ih =>
    cases k with
    | zero => rfl
    | succ n =>
      show f row :: updRows f n rest = g row :: updRows g n rest
      rw [h row, ih n]

theorem updRows_id : ∀ (k : ℕ) (rs : List StabRow), updRows (fun r => r) k rs = rs := by
  intro k rs
  induction rs generalizing k with
  | nil => cases k <;> rfl
  | cons row rest ih =>
    cases k with
    | zero => rfl
    | succ n =>
      show row :: updRows (fun r => r) n rest = row :: rest
      rw [ih n]

/-- The tableau effect of Swap(a,b) is exactly the column swap of a and b on
every non-scratch row. -/
theorem SwapGate_colswap (a b : ℕ) (hab : a ≠ b) (s : Stab) :
    SwapGate a b s =
      { s with rows := (updRows (fun row => ⟨swapBits a b row.x, swapBits a b row.z, row.r⟩)
          (2 * s.qubitCount) s.rows) } := by
  obtain ⟨n, rows, po, ub, rg⟩ := s
  show ({ qubitCount := n, rows := updRows (cnotRow a b) (2 * n) (updRows (cnotRow b a) (2 * n) (updRows (cnotRow a b) (2 * n) rows)), phaseOffset := po, isUnitarityBroken := ub, randGlobalPhase := rg } : Stab) = _
  rw [updRows_comp, updRows_comp]
  exact congrArg (fun rs => ({ qubitCount := n, rows := rs, phaseOffset := po, isUnitarityBroken := ub, randGlobalPhase := rg } : Stab)) (updRows_congr _ _ (fun r => swapRow_eq a b hab r) (2 * n) rows)

/-- C9 amended: the two-qubit TrySeparate returns CanDecomposeDispose of the
tableau with the pair swapped to positions 0 and 1; the two swaps are then
re-applied in the same order (not inverted), which restores the tableau
exactly when the two transpositions are disjoint — in particular whenever
both qubits lie outside positions 0 and 1. -/
theorem C9_trySeparate2_effect (canDD : Stab → Bool) (q1 q2 : ℕ) (s : Stab)
    (h1 : 1 < q1) (h2 : 1 < q2) (hne : q1 ≠ q2) :
    (TrySeparate2 canDD q1 q2 s).1 = canDD (SwapGate q2 1 (SwapGate q1 0 s)) ∧
      (TrySeparate2 canDD q1 q2 s).2 = s := by
  have hq10 : q1 ≠ 0 := by omega
  have hq21 : q2 ≠ 1 := by omega
  refine ⟨rfl, ?_⟩
  show SwapGate q2 1 (SwapGate q1 0 (SwapGate q2 1 (SwapGate q1 0 s))) = s
  have hm : ∀ m : ℕ, swapBits q2 1 (swapBits q1 0 (swapBits q2 1 (swapBits q1 0 m))) = m := by
    intro m
    rw [show swapBits q1 0 (swapBits q2 1 (swapBits q1 0 m)) =
        swapBits q2 1 (swapBits q1 0 (swapBits q1 0 m)) from
      swapBits_comm_disjoint q1 0 q2 1 _ hne (by omega) (by omega) (by omega)]
    rw [swapBits_involution, swapBits_involution]
  obtain ⟨n, rows, po, ub, rg⟩ := s
  simp only [SwapGate_colswap q1 0 hq10, SwapGate_colswap q2 1 hq21, updRows_comp]
  have hpoint : ∀ r : StabRow,
      (⟨swapBits q2 1 (swapBits q1 0 (swapBits q2 1 (swapBits q1 0 r.x))),
        swapBits q2 1 (swapBits q1 0 (swapBits q2 1 (swapBits q1 0 r.z))), r.r⟩ : StabRow) = r := by
    intro r
    obtain ⟨rx, rz, rr⟩ := r
    simp only
    rw [hm rx, hm rz]
  rw [updRows_congr _ _ hpoint, updRows_id]

/-- A four-qubit basis-state tableau with qubit 0 set. -/
def stab4 : Stab :=
  ⟨4, [⟨1, 0, 0⟩, ⟨2, 0, 0⟩, ⟨4, 0, 0⟩, ⟨8, 0, 0⟩,
    ⟨0, 1, 2⟩, ⟨0, 2, 0⟩, ⟨0, 4, 0⟩, ⟨0, 8, 0⟩, ⟨0, 0, 0⟩], 1, false, true⟩

/-- C9 amended witness: separating qubits 2 and 3 of a four-qubit tableau
returns the decomposability test of the swapped state and restores the
tableau exactly. -/
theorem C9_trySeparate2_effect_witness :
    (TrySeparate2 (fun _ => true) 2 3 stab4).1 =
        (fun _ => true) (SwapGate 3 1 (SwapGate 2 0 stab4)) ∧
      (TrySeparate2 (fun _ => true) 2 3 stab4).2 = stab4 :=
  C9_trySeparate2_effect (fun _ => true) 2 3 stab4 (by decide) (by decide) (by decide)

end QrackSpec
